import Mathlib

/-!
Shallow embedding of the `tracer` path-tracing renderer
(`src/geometry.rs` and `src/main.rs`).

Modelling conventions:

* Rust `f32` values are modelled as exact rationals `ℚ`.  Every place the
  source calls `f32::sqrt` the embedding takes the square-root function as
  an explicit parameter `sq : ℚ → ℚ`, so theorems quantify over the numeric
  behaviour of the square root where it does not matter and hypothesise the
  properties they need (non-negativity, exactness at a point) where it does.
* The thread-local random generator (`rand::thread_rng`, whose `gen::<f32>()`
  draws uniformly from `[0, 1)`) is modelled as a stream `stream : ℕ → ℚ`
  of draws together with a cursor that every consumer advances explicitly.
* The rejection loop in `Vector::random_unit` is modelled with explicit
  fuel; it returns `none` when the fuel is exhausted, which corresponds to
  the Rust loop spinning forever on a stream with no acceptable triple.
* `f32` special values (`NaN`, `±inf`) are irrelevant to the geometric
  claims but essential to the `color`/`gamma` packing function, which is
  therefore modelled on an extended carrier `F` with `nan`/`inf`/`ninf`.
-/

namespace Tracer

/-- `Vector` from `geometry.rs`: a 3-component value type, also used as an
RGB color (`Color` is an alias). -/
structure Vector where
  x : ℚ
  y : ℚ
  z : ℚ
deriving DecidableEq, Repr

instance : Add Vector := ⟨fun a b => ⟨a.x + b.x, a.y + b.y, a.z + b.z⟩⟩

instance : Sub Vector := ⟨fun a b => ⟨a.x - b.x, a.y - b.y, a.z - b.z⟩⟩

instance : Mul Vector := ⟨fun a b => ⟨a.x * b.x, a.y * b.y, a.z * b.z⟩⟩

instance : HMul ℚ Vector Vector := ⟨fun s v => ⟨s * v.x, s * v.y, s * v.z⟩⟩

instance : HMul Vector ℚ Vector := ⟨fun v s => ⟨v.x * s, v.y * s, v.z * s⟩⟩

instance : HDiv Vector ℚ Vector := ⟨fun v s => ⟨v.x / s, v.y / s, v.z / s⟩⟩

@[simp] theorem Vector.mk_add (a b c d e f : ℚ) :
    (⟨a, b, c⟩ + ⟨d, e, f⟩ : Vector) = ⟨a + d, b + e, c + f⟩ := rfl

@[simp] theorem Vector.mk_sub (a b c d e f : ℚ) :
    (⟨a, b, c⟩ - ⟨d, e, f⟩ : Vector) = ⟨a - d, b - e, c - f⟩ := rfl

@[simp] theorem Vector.mk_mul (a b c d e f : ℚ) :
    (⟨a, b, c⟩ * ⟨d, e, f⟩ : Vector) = ⟨a * d, b * e, c * f⟩ := rfl

@[simp] theorem Vector.smul_mk (s a b c : ℚ) :
    s * (⟨a, b, c⟩ : Vector) = ⟨s * a, s * b, s * c⟩ := rfl

@[simp] theorem Vector.mk_smul (s a b c : ℚ) :
    (⟨a, b, c⟩ : Vector) * s = ⟨a * s, b * s, c * s⟩ := rfl

@[simp] theorem Vector.mk_div (s a b c : ℚ) :
    (⟨a, b, c⟩ : Vector) / s = ⟨a / s, b / s, c / s⟩ := rfl

/-- `Vector::ZERO`. -/
def Vector.ZERO : Vector := ⟨0, 0, 0⟩

/-- `Vector::dot`. -/
def Vector.dot (a b : Vector) : ℚ := a.x * b.x + a.y * b.y + a.z * b.z

/-- `Vector::cross`. -/
def Vector.cross (a b : Vector) : Vector :=
  ⟨a.y * b.z - a.z * b.y, a.z * b.x - a.x * b.z, a.x * b.y - a.y * b.x⟩

/-- `Vector::length_square`. -/
def Vector.length_square (v : Vector) : ℚ := v.dot v

/-- `Vector::length` (`length_square().sqrt()`); `sq` models `f32::sqrt`. -/
def Vector.length (sq : ℚ → ℚ) (v : Vector) : ℚ := sq v.length_square

/-- `Vector::normalize`: divide by the length when it is positive, return
the vector unchanged otherwise. -/
def Vector.normalize (sq : ℚ → ℚ) (v : Vector) : Vector :=
  if 0 < v.length sq then v / v.length sq else v

theorem Vector.length_square_nonneg (v : Vector) : 0 ≤ v.length_square := by
  unfold Vector.length_square Vector.dot
  have hx := mul_self_nonneg v.x
  have hy := mul_self_nonneg v.y
  have hz := mul_self_nonneg v.z
  linarith

theorem Vector.length_square_div (v : Vector) (s : ℚ) :
    (v / s).length_square = v.length_square / (s * s) := by
  unfold Vector.length_square Vector.dot
  show v.x / s * (v.x / s) + v.y / s * (v.y / s) + v.z / s * (v.z / s) = _
  rcases eq_or_ne s 0 with rfl | hs
  · simp
  · field_simp

theorem Vector.normalize_unit (sq : ℚ → ℚ) (hsq : ∀ q, 0 ≤ q → 0 ≤ sq q)
    (v : Vector) (hpos : 0 < v.length_square)
    (hex : sq v.length_square * sq v.length_square = v.length_square) :
    (v.normalize sq).length_square = 1 := by
  have hnn : 0 ≤ sq v.length_square := hsq _ (Vector.length_square_nonneg v)
  have hspos : 0 < sq v.length_square := by
    rcases lt_or_eq_of_le hnn with hlt | heq
    · exact hlt
    · rw [← heq] at hex
      simp at hex
      rw [← hex] at hpos
      simp at hpos
  unfold Vector.normalize Vector.length
  rw [if_pos hspos, Vector.length_square_div, hex, div_self (ne_of_gt hpos)]

/-- `Vector::near_zero`: all components below `1e-8` in magnitude. -/
def Vector.near_zero (v : Vector) : Prop :=
  |v.x| < 1 / 100000000 ∧ |v.y| < 1 / 100000000 ∧ |v.z| < 1 / 100000000

instance (v : Vector) : Decidable v.near_zero :=
  inferInstanceAs (Decidable (_ ∧ _ ∧ _))

/-- `Vector::reflect`: `self - 2·(self·normal)·normal`. -/
def Vector.reflect (v normal : Vector) : Vector :=
  v - (2 * v.dot normal) * normal

/-- `Vector::refract` (Snell's law via perpendicular/parallel split). -/
def Vector.refract (sq : ℚ → ℚ) (v normal : Vector) (etai_over_etat : ℚ) : Vector :=
  let cos_theta := min (((-1 : ℚ) * v).dot normal) 1
  let r_out_perp := etai_over_etat * (v + cos_theta * normal)
  let r_out_parallel := (-(sq |1 - r_out_perp.length_square|)) * normal
  r_out_perp + r_out_parallel

/-- The candidate vector built from three consecutive draws of the stream,
as in the body of the `Vector::random_unit` loop. -/
def drawVec (stream : ℕ → ℚ) (pos : ℕ) : Vector :=
  ⟨stream pos, stream (pos + 1), stream (pos + 2)⟩

/-- `Vector::random_unit`: rejection-sample a point of the unit cube and
accept when its squared length lies strictly between 0 and 1, then
normalize.  `fuel` bounds the number of rejection rounds; `none` models the
Rust loop never finding an acceptable triple within that many rounds. -/
def Vector.random_unit (sq : ℚ → ℚ) (stream : ℕ → ℚ) :
    (fuel : ℕ) → (pos : ℕ) → Option (Vector × ℕ)
  | 0, _ => none
  | fuel + 1, pos =>
    let v := drawVec stream pos
    if 0 < v.length_square ∧ v.length_square < 1 then some (v.normalize sq, pos + 3)
    else Vector.random_unit sq stream fuel (pos + 3)

/-- `Ray` from `geometry.rs`. -/
structure Ray where
  origin : Vector
  direction : Vector
deriving DecidableEq, Repr

/-- `Ray::at`: `origin + t·direction`. -/
def Ray.at (r : Ray) (t : ℚ) : Vector := r.origin + t * r.direction

/-- `Interval` from `geometry.rs`. `RENDER_RANGE` has min `1e-4` and an
infinite max, which `ℚ` cannot express; render-level definitions therefore
take the upper bound as a parameter. -/
structure Interval where
  min : ℚ
  max : ℚ
deriving DecidableEq, Repr

/-- `Interval::RENDER_RANGE` with `f32::INFINITY` as a parameter. -/
def Interval.RENDER_RANGE (infty : ℚ) : Interval := ⟨1 / 10000, infty⟩

/-- `Interval::surrounds`: strict on both ends. -/
def Interval.surrounds (iv : Interval) (x : ℚ) : Prop :=
  iv.min < x ∧ iv.max > x

instance (iv : Interval) (x : ℚ) : Decidable (iv.surrounds x) :=
  inferInstanceAs (Decidable (_ ∧ _))

/-- `Hit` record from `geometry.rs`. -/
structure Hit where
  t : ℚ
  normal : Vector
  is_front : Bool
deriving DecidableEq, Repr

/-- `Sphere` from `geometry.rs`. -/
structure Sphere where
  center : Vector
  radius : ℚ
deriving DecidableEq, Repr

/-- The `tca` local of `Sphere::hit`: `l·direction` with `l = center - origin`. -/
def Sphere.tca (s : Sphere) (ray : Ray) : ℚ :=
  (s.center - ray.origin).dot ray.direction

/-- The `d2` local of `Sphere::hit`: `l·l - tca²`. -/
def Sphere.d2 (s : Sphere) (ray : Ray) : ℚ :=
  (s.center - ray.origin).length_square - s.tca ray * s.tca ray

/-- The smaller quadratic root `t0 = tca - thc` of `Sphere::hit`,
with `thc = sqrt(r² - d2)`. -/
def Sphere.t0 (sq : ℚ → ℚ) (s : Sphere) (ray : Ray) : ℚ :=
  s.tca ray - sq (s.radius * s.radius - s.d2 ray)

/-- The larger quadratic root `t1 = tca + thc` of `Sphere::hit`. -/
def Sphere.t1 (sq : ℚ → ℚ) (s : Sphere) (ray : Ray) : ℚ :=
  s.tca ray + sq (s.radius * s.radius - s.d2 ray)

/-- `Sphere::hit` (the `impl Hittable for Sphere`): miss when `d2 > r²`,
else prefer the smaller root strictly inside the interval (front face,
outward normal), falling back to the larger root (back face, inward
normal), else miss. -/
def Sphere.hit (sq : ℚ → ℚ) (s : Sphere) (ray : Ray) (iv : Interval) : Option Hit :=
  if s.radius * s.radius < s.d2 ray then none
  else if iv.surrounds (s.t0 sq ray) then
    some ⟨s.t0 sq ray, Vector.normalize sq (ray.at (s.t0 sq ray) - s.center), true⟩
  else if iv.surrounds (s.t1 sq ray) then
    some ⟨s.t1 sq ray, Vector.normalize sq (s.center - ray.at (s.t1 sq ray)), false⟩
  else none

/-- Claim C3: `Sphere::hit` returns `none` exactly when `d2 > radius²` or
neither quadratic root lies strictly inside the interval; otherwise, when
the smaller root `t0 = tca - thc` is strictly inside the interval it is
returned with `is_front = true` and normal `normalize(ray.at(t0) - center)`
(pointing from the center through the hit point), and when only the larger
root `t1 = tca + thc` is strictly inside it is returned with
`is_front = false` and normal `normalize(center - ray.at(t1))` (pointing
from the hit point back toward the center); `t0` is indeed the smaller root
whenever the square root is non-negative, and a normalized vector has unit
squared length whenever the square root is exact on its squared length (so
the returned normals are unit vectors up to `f32::sqrt` precision). -/
theorem sphere_hit_characterization (sq : ℚ → ℚ) (s : Sphere) (ray : Ray)
    (iv : Interval) (hsq : ∀ q, 0 ≤ q → 0 ≤ sq q) :
    (s.hit sq ray iv = none ↔
      s.radius * s.radius < s.d2 ray ∨
        (¬ iv.surrounds (s.t0 sq ray) ∧ ¬ iv.surrounds (s.t1 sq ray))) ∧
    (s.d2 ray ≤ s.radius * s.radius → s.t0 sq ray ≤ s.t1 sq ray) ∧
    (s.d2 ray ≤ s.radius * s.radius → iv.surrounds (s.t0 sq ray) →
      s.hit sq ray iv =
        some ⟨s.t0 sq ray, Vector.normalize sq (ray.at (s.t0 sq ray) - s.center), true⟩) ∧
    (s.d2 ray ≤ s.radius * s.radius → ¬ iv.surrounds (s.t0 sq ray) →
      iv.surrounds (s.t1 sq ray) →
      s.hit sq ray iv =
        some ⟨s.t1 sq ray, Vector.normalize sq (s.center - ray.at (s.t1 sq ray)), false⟩) ∧
    (∀ v : Vector, 0 < v.length_square →
      sq v.length_square * sq v.length_square = v.length_square →
      (v.normalize sq).length_square = 1) := by
  refine ⟨?_, ?_, ?_, ?_, fun v hp he => Vector.normalize_unit sq hsq v hp he⟩
  · unfold Sphere.hit
    split
    · simp_all
    · split
      · simp_all
      · split <;> simp_all
  · intro hd
    have h0 : 0 ≤ sq (s.radius * s.radius - s.d2 ray) := hsq _ (by linarith)
    unfold Sphere.t0 Sphere.t1
    linarith
  · intro hd h0
    unfold Sphere.hit
    rw [if_neg (by linarith), if_pos h0]
  · intro hd h0 h1
    unfold Sphere.hit
    rw [if_neg (by linarith), if_neg h0, if_pos h1]

/-- Square root used by concrete witnesses: exact on the few perfect
squares the witnesses hit, zero elsewhere (in particular non-negative
everywhere). -/
def sqW : ℚ → ℚ := fun q =>
  if q = 1 / 4 then 1 / 2 else if q = 1 then 1 else if q = 4 then 2 else 0

theorem sphere_hit_characterization_witness :
    Sphere.hit sqW ⟨⟨0, 0, -3⟩, 1⟩ ⟨⟨0, 0, 0⟩, ⟨0, 0, -1⟩⟩ ⟨1 / 10, 100⟩ =
      some ⟨2, ⟨0, 0, 1⟩, true⟩ := by
  rw [(sphere_hit_characterization sqW ⟨⟨0, 0, -3⟩, 1⟩ ⟨⟨0, 0, 0⟩, ⟨0, 0, -1⟩⟩
      ⟨1 / 10, 100⟩ (by intro q hq; unfold sqW; split_ifs <;> norm_num)).2.2.1
    (by norm_num [Sphere.d2, Sphere.tca, Vector.dot, Vector.length_square])
    (by norm_num [Interval.surrounds, Sphere.t0, Sphere.tca, Sphere.d2, sqW,
      Vector.dot, Vector.length_square])]
  norm_num [Sphere.t0, Sphere.tca, Sphere.d2, sqW, Ray.at, Vector.normalize,
    Vector.length, Vector.length_square, Vector.dot]

/-- The `OnHit` enum from `geometry.rs`: absorption (`OnHit::None`),
scatter with attenuation, or emission. -/
inductive OnHit where
  | none
  | scatter (attenuation : Vector) (scattered : Ray)
  | emitted (color : Vector)
deriving DecidableEq, Repr

/-- The four `Material` implementations of `geometry.rs`, as one closed
type: `Lambertian`, `Metal`, `Dielectric`, `Light`. -/
inductive Material where
  | lambertian (albedo : Vector)
  | metal (albedo : Vector) (fuzz : ℚ)
  | dielectric (refraction_index : ℚ)
  | light (color : Vector)
deriving DecidableEq, Repr

/-- `f32::clamp(lo, hi)` on the rational carrier. -/
def clampQ (x lo hi : ℚ) : ℚ :=
  if x < lo then lo else if hi < x then hi else x

/-- `Metal::new`: stores the albedo and `fuzz.clamp(0., 1.)`. -/
def Metal.new (albedo : Vector) (fuzz : ℚ) : Material :=
  Material.metal albedo (clampQ fuzz 0 1)

/-- The stored fuzz of a metal material (0 on the other variants). -/
def metalFuzz : Material → ℚ
  | .metal _ f => f
  | _ => 0

/-- `Dielectric::reflectance` (Schlick's approximation). -/
def Dielectric.reflectance (cosine refraction_index : ℚ) : ℚ :=
  let r0 := (1 - refraction_index) / (1 + refraction_index)
  let r1 := r0 * r0
  r1 + (1 - r1) * (1 - cosine) ^ 5

/-- `Material::on_hit` for all four materials.  The stream cursor `pos`
advances past every random draw consumed; `fuel` bounds the rejection
rounds of each `random_unit` call, and `none` models that call spinning
forever.  The `Dielectric` branch draws from the generator only when
refraction is geometrically possible (the Rust `||` short-circuits). -/
def Material.on_hit (sq : ℚ → ℚ) (stream : ℕ → ℚ) (fuel : ℕ) :
    Material → Ray → Hit → ℕ → Option (OnHit × ℕ)
  | .lambertian albedo, ray, rec, pos =>
    match Vector.random_unit sq stream fuel pos with
    | Option.none => Option.none
    | Option.some (u, pos') =>
      let scatter_direction := rec.normal + u
      let scatter_direction :=
        if scatter_direction.near_zero then rec.normal else scatter_direction
      some (OnHit.scatter albedo ⟨ray.at rec.t, scatter_direction.normalize sq⟩, pos')
  | .metal albedo fuzz, ray, rec, pos =>
    match Vector.random_unit sq stream fuel pos with
    | Option.none => Option.none
    | Option.some (u, pos') =>
      let reflected := ray.direction.reflect rec.normal + fuzz * u
      if 0 < reflected.dot rec.normal then
        some (OnHit.scatter albedo ⟨ray.at rec.t, reflected⟩, pos')
      else some (OnHit.none, pos')
  | .dielectric refraction_index, ray, rec, pos =>
    let ri := if rec.is_front then 1 / refraction_index else refraction_index
    let cos_theta := min (((-1 : ℚ) * ray.direction).dot rec.normal) 1
    let sin_theta := sq (1 - cos_theta * cos_theta)
    if 1 < ri * sin_theta then
      some (OnHit.scatter ⟨1, 1, 1⟩ ⟨ray.at rec.t, ray.direction.reflect rec.normal⟩, pos)
    else if stream pos < Dielectric.reflectance cos_theta ri then
      some (OnHit.scatter ⟨1, 1, 1⟩ ⟨ray.at rec.t, ray.direction.reflect rec.normal⟩, pos + 1)
    else
      some (OnHit.scatter ⟨1, 1, 1⟩
        ⟨ray.at rec.t, ray.direction.refract sq rec.normal ri⟩, pos + 1)
  | .light color, _, _, pos => some (OnHit.emitted color, pos)

/-- Claim C10: `Metal::new` clamps its fuzz argument into `[0, 1]` before
storing it, so every constructed metal material carries a stored fuzz in
`[0, 1]`; the material is immutable, so `on_hit` always sees that same
clamped value. -/
theorem metal_new_fuzz_clamped (albedo : Vector) (fuzz : ℚ) :
    0 ≤ metalFuzz (Metal.new albedo fuzz) ∧
    metalFuzz (Metal.new albedo fuzz) ≤ 1 ∧
    Metal.new albedo fuzz = Material.metal albedo (clampQ fuzz 0 1) ∧
    (∀ sq stream fuel ray rec pos,
      Material.on_hit sq stream fuel (Metal.new albedo fuzz) ray rec pos =
        Material.on_hit sq stream fuel
          (Material.metal albedo (clampQ fuzz 0 1)) ray rec pos) := by
  have hcl : 0 ≤ clampQ fuzz 0 1 ∧ clampQ fuzz 0 1 ≤ 1 := by
    unfold clampQ
    split_ifs <;> constructor <;> linarith
  exact ⟨hcl.1, hcl.2, rfl, fun _ _ _ _ _ _ => rfl⟩

/-- Stream of draws used by concrete witnesses: `3/10, 2/5, 0, 0, …`
(the first triple has squared length `1/4`, so it is accepted). -/
def streamW : ℕ → ℚ := fun n => if n = 0 then 3 / 10 else if n = 1 then 2 / 5 else 0

/-- Claim C7: `Lambertian::on_hit` always scatters (never absorbs, never
emits), with attenuation exactly the configured albedo, scattered origin
exactly `ray.at(rec.t)`, and scattered direction the normalization of
`rec.normal + random_unit()` — of `rec.normal` alone when that sum is
near-zero.  (Stated for every terminating run of the `random_unit`
rejection loop.) -/
theorem lambertian_on_hit_always_scatters (sq : ℚ → ℚ) (stream : ℕ → ℚ)
    (fuel : ℕ) (albedo : Vector) (ray : Ray) (rec : Hit) (pos : ℕ)
    (u : Vector) (pos' : ℕ)
    (hru : Vector.random_unit sq stream fuel pos = some (u, pos')) :
    Material.on_hit sq stream fuel (.lambertian albedo) ray rec pos =
      some (OnHit.scatter albedo
        ⟨ray.at rec.t,
          Vector.normalize sq
            (if (rec.normal + u).near_zero then rec.normal else rec.normal + u)⟩,
        pos') ∧
    ((rec.normal + u).near_zero →
      Material.on_hit sq stream fuel (.lambertian albedo) ray rec pos =
        some (OnHit.scatter albedo
          ⟨ray.at rec.t, Vector.normalize sq rec.normal⟩, pos')) := by
  constructor
  · simp only [Material.on_hit, hru]
  · intro hnz
    simp only [Material.on_hit, hru, if_pos hnz]

theorem lambertian_on_hit_always_scatters_witness :
    Material.on_hit sqW streamW 1 (.lambertian ⟨1 / 2, 1 / 2, 1 / 2⟩)
        ⟨⟨0, 0, 0⟩, ⟨0, 0, -1⟩⟩ ⟨1, ⟨0, 0, 1⟩, true⟩ 0 =
      some (OnHit.scatter ⟨1 / 2, 1 / 2, 1 / 2⟩
        ⟨⟨0, 0, -1⟩, ⟨3 / 5, 4 / 5, 1⟩⟩, 3) := by
  rw [(lambertian_on_hit_always_scatters sqW streamW 1 ⟨1 / 2, 1 / 2, 1 / 2⟩
      ⟨⟨0, 0, 0⟩, ⟨0, 0, -1⟩⟩ ⟨1, ⟨0, 0, 1⟩, true⟩ 0 ⟨3 / 5, 4 / 5, 0⟩ 3
      (by norm_num [Vector.random_unit, drawVec, streamW, sqW, Vector.normalize,
        Vector.length, Vector.length_square, Vector.dot])).1]
  norm_num [Ray.at, Vector.near_zero, Vector.normalize, Vector.length,
    Vector.length_square, Vector.dot, sqW]

/-- Claim C8: whenever the draws all come from `[0, 1)`, every vector a
terminating run of `Vector::random_unit` returns has three non-negative
components (the sampler covers only the non-negative octant, not the whole
sphere); it is the normalization of an accepted in-cube sample, hence of
unit length whenever the square root is exact on that sample's squared
length. -/
theorem random_unit_octant (sq : ℚ → ℚ) (stream : ℕ → ℚ) (fuel pos : ℕ)
    (u : Vector) (pos' : ℕ)
    (hstream : ∀ n, 0 ≤ stream n ∧ stream n < 1)
    (hsq : ∀ q, 0 ≤ q → 0 ≤ sq q)
    (h : Vector.random_unit sq stream fuel pos = some (u, pos')) :
    (0 ≤ u.x ∧ 0 ≤ u.y ∧ 0 ≤ u.z) ∧
    ∃ v : Vector, 0 < v.length_square ∧ v.length_square < 1 ∧
      u = v.normalize sq ∧
      (sq v.length_square * sq v.length_square = v.length_square →
        u.length_square = 1) := by
  induction fuel generalizing pos with
  | zero => exact absurd h (by simp [Vector.random_unit])
  | succ fuel ih =>
    rw [Vector.random_unit] at h
    split at h
    · rename_i hacc
      simp only [Option.some.injEq, Prod.mk.injEq] at h
      have huv : u = (drawVec stream pos).normalize sq := h.1.symm
      have hvnn : 0 ≤ (drawVec stream pos).x ∧ 0 ≤ (drawVec stream pos).y ∧
          0 ≤ (drawVec stream pos).z :=
        ⟨(hstream pos).1, (hstream (pos + 1)).1, (hstream (pos + 2)).1⟩
      have hsnn : 0 ≤ sq (drawVec stream pos).length_square :=
        hsq _ (Vector.length_square_nonneg _)
      constructor
      · rw [huv]
        unfold Vector.normalize Vector.length
        split_ifs with hpos
        · refine ⟨div_nonneg hvnn.1 hsnn, div_nonneg hvnn.2.1 hsnn,
            div_nonneg hvnn.2.2 hsnn⟩
        · exact hvnn
      · refine ⟨drawVec stream pos, hacc.1, hacc.2, huv, fun hex => ?_⟩
        rw [huv]
        exact Vector.normalize_unit sq hsq (drawVec stream pos) hacc.1 hex
    · exact ih (pos + 3) h

theorem random_unit_octant_witness :
    0 ≤ (Vector.mk (3 / 5) (4 / 5) 0).x ∧ 0 ≤ (Vector.mk (3 / 5) (4 / 5) 0).y ∧
      0 ≤ (Vector.mk (3 / 5) (4 / 5) 0).z :=
  (random_unit_octant sqW streamW 1 0 ⟨3 / 5, 4 / 5, 0⟩ 3
    (by intro n; unfold streamW; split_ifs <;> norm_num)
    (by intro q hq; unfold sqW; split_ifs <;> norm_num)
    (by norm_num [Vector.random_unit, drawVec, streamW, sqW, Vector.normalize,
      Vector.length, Vector.length_square, Vector.dot])).1

/-- `Object` from `geometry.rs`: a shape (only `Sphere` exists in the
repository) paired with a shared material. -/
structure Object where
  shape : Sphere
  material : Material
deriving DecidableEq, Repr

theorem Sphere.hit_front (sq : ℚ → ℚ) (s : Sphere) (ray : Ray) (iv : Interval)
    (hA : ¬ s.radius * s.radius < s.d2 ray) (h0 : iv.surrounds (s.t0 sq ray)) :
    s.hit sq ray iv =
      some ⟨s.t0 sq ray, Vector.normalize sq (ray.at (s.t0 sq ray) - s.center), true⟩ := by
  unfold Sphere.hit
  rw [if_neg hA, if_pos h0]

theorem Sphere.hit_back (sq : ℚ → ℚ) (s : Sphere) (ray : Ray) (iv : Interval)
    (hA : ¬ s.radius * s.radius < s.d2 ray) (h0 : ¬ iv.surrounds (s.t0 sq ray))
    (h1 : iv.surrounds (s.t1 sq ray)) :
    s.hit sq ray iv =
      some ⟨s.t1 sq ray, Vector.normalize sq (s.center - ray.at (s.t1 sq ray)), false⟩ := by
  unfold Sphere.hit
  rw [if_neg hA, if_neg h0, if_pos h1]

theorem Sphere.hit_miss (sq : ℚ → ℚ) (s : Sphere) (ray : Ray) (iv : Interval)
    (h0 : ¬ iv.surrounds (s.t0 sq ray)) (h1 : ¬ iv.surrounds (s.t1 sq ray)) :
    s.hit sq ray iv = none := by
  unfold Sphere.hit
  split_ifs <;> rfl

theorem Sphere.hit_some_cases (sq : ℚ → ℚ) (s : Sphere) (ray : Ray)
    (iv : Interval) (h : Hit) (hh : s.hit sq ray iv = some h) :
    ¬ s.radius * s.radius < s.d2 ray ∧
    ((iv.surrounds (s.t0 sq ray) ∧
        h = ⟨s.t0 sq ray, Vector.normalize sq (ray.at (s.t0 sq ray) - s.center), true⟩) ∨
      (¬ iv.surrounds (s.t0 sq ray) ∧ iv.surrounds (s.t1 sq ray) ∧
        h = ⟨s.t1 sq ray, Vector.normalize sq (s.center - ray.at (s.t1 sq ray)), false⟩)) := by
  unfold Sphere.hit at hh
  split_ifs at hh with hA h0 h1
  · injection hh with he
    exact ⟨hA, Or.inl ⟨h0, he.symm⟩⟩
  · injection hh with he
    exact ⟨hA, Or.inr ⟨h0, h1, he.symm⟩⟩

theorem Sphere.t0_le_t1 (sq : ℚ → ℚ) (hsq : ∀ q, 0 ≤ q → 0 ≤ sq q)
    (s : Sphere) (ray : Ray) (hA : ¬ s.radius * s.radius < s.d2 ray) :
    s.t0 sq ray ≤ s.t1 sq ray := by
  have := hsq (s.radius * s.radius - s.d2 ray) (by linarith [not_lt.mp hA])
  unfold Sphere.t0 Sphere.t1
  linarith

theorem Sphere.hit_t_mem (sq : ℚ → ℚ) (s : Sphere) (ray : Ray) (iv : Interval)
    (h : Hit) (hh : s.hit sq ray iv = some h) : iv.min < h.t ∧ h.t < iv.max := by
  rcases (Sphere.hit_some_cases sq s ray iv h hh).2 with ⟨h0, rfl⟩ | ⟨_, h1, rfl⟩
  · exact ⟨h0.1, h0.2⟩
  · exact ⟨h1.1, h1.2⟩

theorem Sphere.hit_shrink_none (sq : ℚ → ℚ) (s : Sphere) (ray : Ray)
    (mn m M : ℚ) (hmM : m ≤ M) (hh : s.hit sq ray ⟨mn, M⟩ = none) :
    s.hit sq ray ⟨mn, m⟩ = none := by
  unfold Sphere.hit at hh
  split_ifs at hh with hA h0 h1
  · unfold Sphere.hit
    rw [if_pos hA]
  · refine Sphere.hit_miss sq s ray _ (fun hc => h0 ⟨hc.1, ?_⟩) (fun hc => h1 ⟨hc.1, ?_⟩)
    · exact lt_of_lt_of_le hc.2 hmM
    · exact lt_of_lt_of_le hc.2 hmM

theorem Sphere.hit_shrink_some_lt (sq : ℚ → ℚ) (hsq : ∀ q, 0 ≤ q → 0 ≤ sq q)
    (s : Sphere) (ray : Ray) (mn m M : ℚ) (hmM : m ≤ M) (h : Hit)
    (hh : s.hit sq ray ⟨mn, M⟩ = some h) (hlt : h.t < m) :
    s.hit sq ray ⟨mn, m⟩ = some h := by
  obtain ⟨hA, hcases⟩ := Sphere.hit_some_cases sq s ray ⟨mn, M⟩ h hh
  have hle := Sphere.t0_le_t1 sq hsq s ray hA
  rcases hcases with ⟨h0, rfl⟩ | ⟨h0, h1, rfl⟩
  · exact Sphere.hit_front sq s ray _ hA ⟨h0.1, hlt⟩
  · refine Sphere.hit_back sq s ray _ hA (fun hc => ?_) ⟨h1.1, hlt⟩
    have hM : ¬ (M : ℚ) > s.t0 sq ray := fun hgt => h0 ⟨hc.1, hgt⟩
    simp only [Hit.t] at hlt
    exact hM (by linarith [hc.2])

theorem Sphere.hit_shrink_some_ge (sq : ℚ → ℚ) (hsq : ∀ q, 0 ≤ q → 0 ≤ sq q)
    (s : Sphere) (ray : Ray) (mn m M : ℚ) (hmM : m ≤ M) (h : Hit)
    (hh : s.hit sq ray ⟨mn, M⟩ = some h) (hge : m ≤ h.t) :
    s.hit sq ray ⟨mn, m⟩ = none := by
  obtain ⟨hA, hcases⟩ := Sphere.hit_some_cases sq s ray ⟨mn, M⟩ h hh
  have hle := Sphere.t0_le_t1 sq hsq s ray hA
  rcases hcases with ⟨h0, rfl⟩ | ⟨h0, h1, rfl⟩
  · simp only [Hit.t] at hge
    refine Sphere.hit_miss sq s ray _ (fun hc => ?_) (fun hc => ?_)
    · exact absurd hc.2 (by simp only [gt_iff_lt]; linarith)
    · exact absurd hc.2 (by simp only [gt_iff_lt]; linarith)
  · simp only [Hit.t] at hge
    refine Sphere.hit_miss sq s ray _ (fun hc => ?_) (fun hc => ?_)
    · have hM : ¬ (M : ℚ) > s.t0 sq ray := fun hgt => h0 ⟨hc.1, hgt⟩
      exact hM (by linarith [hc.2])
    · exact absurd hc.2 (by simp only [gt_iff_lt]; linarith)

/-- One step of the nearest-hit loop in `Scene::trace` (`main.rs`): the
upper bound of the test interval is the best `t` so far (`interval.max`
when none), and the accumulator is replaced only when the reported `t`
strictly improves it. -/
def hitStep (sq : ℚ → ℚ) (ray : Ray) (iv : Interval)
    (acc : Option (Hit × Material)) (o : Object) : Option (Hit × Material) :=
  let t_min := match acc with
    | some (h, _) => h.t
    | none => iv.max
  match o.shape.hit sq ray ⟨iv.min, t_min⟩ with
  | none => acc
  | some h => if h.t < t_min then some (h, o.material) else acc

/-- The nearest-hit search of `Scene::trace`: a left fold of `hitStep`
over the object list. -/
def nearestHit (sq : ℚ → ℚ) (objects : List Object) (ray : Ray)
    (iv : Interval) : Option (Hit × Material) :=
  objects.foldl (hitStep sq ray iv) none

/-- Modelled from the spec: every object is tested against the ORIGINAL
interval, the hit with the smallest `t` wins, and on an exact tie the
earlier object in iteration order wins (strict improvement required). -/
def bestStep (sq : ℚ → ℚ) (ray : Ray) (iv : Interval)
    (acc : Option (Hit × Material)) (o : Object) : Option (Hit × Material) :=
  match o.shape.hit sq ray iv with
  | none => acc
  | some h =>
    match acc with
    | none => some (h, o.material)
    | some (hb, _) => if h.t < hb.t then some (h, o.material) else acc

/-- Modelled from the spec: the reference nearest-hit search
(`intersect(ray, interval)` in the spec's words). -/
def nearestHitSpec (sq : ℚ → ℚ) (objects : List Object) (ray : Ray)
    (iv : Interval) : Option (Hit × Material) :=
  objects.foldl (bestStep sq ray iv) none

theorem hitStep_eq_bestStep (sq : ℚ → ℚ) (hsq : ∀ q, 0 ≤ q → 0 ≤ sq q)
    (ray : Ray) (iv : Interval) (acc : Option (Hit × Material)) (o : Object)
    (hacc : ∀ p, acc = some p → iv.min < p.1.t ∧ p.1.t < iv.max) :
    hitStep sq ray iv acc o = bestStep sq ray iv acc o := by
  cases acc with
  | none =>
    unfold hitStep bestStep
    cases hov : o.shape.hit sq ray iv with
    | none => simp only [hov]
    | some h =>
      have hb := Sphere.hit_t_mem sq o.shape ray iv h hov
      simp only [hov, if_pos hb.2]
  | some p =>
    obtain ⟨hb, mb⟩ := p
    have hbnd := hacc (hb, mb) rfl
    have hbM : hb.t ≤ iv.max := le_of_lt hbnd.2
    unfold hitStep bestStep
    cases hov : o.shape.hit sq ray iv with
    | none =>
      have hsh := Sphere.hit_shrink_none sq o.shape ray iv.min hb.t iv.max hbM hov
      simp only [hsh, hov]
    | some h =>
      by_cases hlt : h.t < hb.t
      · have hsh := Sphere.hit_shrink_some_lt sq hsq o.shape ray iv.min hb.t iv.max
          hbM h hov hlt
        simp only [hsh, hov, if_pos hlt]
      · have hsh := Sphere.hit_shrink_some_ge sq hsq o.shape ray iv.min hb.t iv.max
          hbM h hov (not_lt.mp hlt)
        simp only [hsh, hov, if_neg hlt]

theorem bestStep_none_eq (sq : ℚ → ℚ) (ray : Ray) (iv : Interval)
    (acc : Option (Hit × Material)) (o : Object)
    (hov : o.shape.hit sq ray iv = none) : bestStep sq ray iv acc o = acc := by
  unfold bestStep
  rw [hov]

theorem bestStep_some_none_eq (sq : ℚ → ℚ) (ray : Ray) (iv : Interval)
    (o : Object) (h : Hit) (hov : o.shape.hit sq ray iv = some h) :
    bestStep sq ray iv none o = some (h, o.material) := by
  unfold bestStep
  rw [hov]

theorem bestStep_some_some_eq (sq : ℚ → ℚ) (ray : Ray) (iv : Interval)
    (o : Object) (h qh : Hit) (qm : Material)
    (hov : o.shape.hit sq ray iv = some h) :
    bestStep sq ray iv (some (qh, qm)) o =
      if h.t < qh.t then some (h, o.material) else some (qh, qm) := by
  unfold bestStep
  rw [hov]

theorem bestStep_bound (sq : ℚ → ℚ) (ray : Ray) (iv : Interval)
    (acc : Option (Hit × Material)) (o : Object)
    (hacc : ∀ p, acc = some p → iv.min < p.1.t ∧ p.1.t < iv.max) :
    ∀ p, bestStep sq ray iv acc o = some p → iv.min < p.1.t ∧ p.1.t < iv.max := by
  intro p hp
  cases hov : o.shape.hit sq ray iv with
  | none =>
    rw [bestStep_none_eq sq ray iv acc o hov] at hp
    exact hacc p hp
  | some h =>
    have hhb := Sphere.hit_t_mem sq o.shape ray iv h hov
    cases acc with
    | none =>
      rw [bestStep_some_none_eq sq ray iv o h hov] at hp
      injection hp with hp
      rw [← hp]
      exact hhb
    | some q =>
      obtain ⟨qh, qm⟩ := q
      rw [bestStep_some_some_eq sq ray iv o h qh qm hov] at hp
      by_cases hlt : h.t < qh.t
      · rw [if_pos hlt] at hp
        injection hp with hp
        rw [← hp]
        exact hhb
      · rw [if_neg hlt] at hp
        exact hacc p hp

theorem foldl_hitStep_eq (sq : ℚ → ℚ) (hsq : ∀ q, 0 ≤ q → 0 ≤ sq q)
    (ray : Ray) (iv : Interval) :
    ∀ (objects : List Object) (acc : Option (Hit × Material)),
      (∀ p, acc = some p → iv.min < p.1.t ∧ p.1.t < iv.max) →
      objects.foldl (hitStep sq ray iv) acc = objects.foldl (bestStep sq ray iv) acc
  | [], _, _ => rfl
  | o :: os, acc, hacc => by
    simp only [List.foldl_cons]
    rw [hitStep_eq_bestStep sq hsq ray iv acc o hacc]
    exact foldl_hitStep_eq sq hsq ray iv os (bestStep sq ray iv acc o)
      (bestStep_bound sq ray iv acc o hacc)

theorem foldl_bestStep_min (sq : ℚ → ℚ) (ray : Ray) (iv : Interval) :
    ∀ (objects : List Object) (acc : Option (Hit × Material)) (p : Hit × Material),
      objects.foldl (bestStep sq ray iv) acc = some p →
      (∀ o ∈ objects, ∀ h, o.shape.hit sq ray iv = some h → p.1.t ≤ h.t) ∧
      (∀ q, acc = some q → p.1.t ≤ q.1.t)
  | [], acc, p, hp => by
    refine ⟨by simp, fun q hq => ?_⟩
    rw [List.foldl_nil] at hp
    rw [hp] at hq
    injection hq with hq
    rw [hq]
  | o :: os, acc, p, hp => by
    rw [List.foldl_cons] at hp
    cases hov : o.shape.hit sq ray iv with
    | none =>
      rw [bestStep_none_eq sq ray iv acc o hov] at hp
      obtain ⟨ih1, ih2⟩ := foldl_bestStep_min sq ray iv os acc p hp
      refine ⟨?_, ih2⟩
      intro o2 ho2 h hh
      rcases List.mem_cons.mp ho2 with rfl | hos
      · rw [hov] at hh
        cases hh
      · exact ih1 o2 hos h hh
    | some h =>
      cases acc with
      | none =>
        rw [bestStep_some_none_eq sq ray iv o h hov] at hp
        obtain ⟨ih1, ih2⟩ := foldl_bestStep_min sq ray iv os (some (h, o.material)) p hp
        have hph : p.1.t ≤ h.t := ih2 (h, o.material) rfl
        refine ⟨?_, fun q hq => by cases hq⟩
        intro o2 ho2 h2 hh2
        rcases List.mem_cons.mp ho2 with rfl | hos
        · rw [hov] at hh2
          injection hh2 with he
          rw [← he]
          exact hph
        · exact ih1 o2 hos h2 hh2
      | some q =>
        obtain ⟨qh, qm⟩ := q
        rw [bestStep_some_some_eq sq ray iv o h qh qm hov] at hp
        by_cases hlt : h.t < qh.t
        · rw [if_pos hlt] at hp
          obtain ⟨ih1, ih2⟩ := foldl_bestStep_min sq ray iv os (some (h, o.material)) p hp
          have hph : p.1.t ≤ h.t := ih2 (h, o.material) rfl
          refine ⟨?_, ?_⟩
          · intro o2 ho2 h2 hh2
            rcases List.mem_cons.mp ho2 with rfl | hos
            · rw [hov] at hh2
              injection hh2 with he
              rw [← he]
              exact hph
            · exact ih1 o2 hos h2 hh2
          · intro q2 hq2
            injection hq2 with hq2
            rw [← hq2]
            exact le_trans hph (le_of_lt hlt)
        · rw [if_neg hlt] at hp
          obtain ⟨ih1, ih2⟩ := foldl_bestStep_min sq ray iv os (some (qh, qm)) p hp
          have hpq : p.1.t ≤ qh.t := ih2 (qh, qm) rfl
          refine ⟨?_, ?_⟩
          · intro o2 ho2 h2 hh2
            rcases List.mem_cons.mp ho2 with rfl | hos
            · rw [hov] at hh2
              injection hh2 with he
              rw [← he]
              exact le_trans hpq (not_lt.mp hlt)
            · exact ih1 o2 hos h2 hh2
          · intro q2 hq2
            injection hq2 with hq2
            rw [← hq2]
            exact hpq

/-- Claim C4: the nearest-hit loop of `Scene::trace` — which scans objects
in order and tests each one against the interval whose upper bound has
been shrunk to the best `t` so far — computes exactly the reference search
in which every object is tested against the original interval and the hit
with the globally smallest `t` wins; the returned `t` is minimal among all
per-object hits in the original interval, and with two objects whose hits
do not strictly improve, the earlier object wins (an equal-`t` hit of the
later object is never selected). -/
theorem nearest_hit_search_correct (sq : ℚ → ℚ) (objects : List Object)
    (ray : Ray) (iv : Interval) (hsq : ∀ q, 0 ≤ q → 0 ≤ sq q) :
    nearestHit sq objects ray iv = nearestHitSpec sq objects ray iv ∧
    (∀ h m, nearestHit sq objects ray iv = some (h, m) →
      ∀ o ∈ objects, ∀ h2, o.shape.hit sq ray iv = some h2 → h.t ≤ h2.t) ∧
    (∀ o1 o2 h1 h2, o1.shape.hit sq ray iv = some h1 →
      o2.shape.hit sq ray iv = some h2 → ¬ h2.t < h1.t →
      nearestHit sq [o1, o2] ray iv = some (h1, o1.material)) := by
  have hfold := foldl_hitStep_eq sq hsq ray iv objects none (by intro p hp; cases hp)
  refine ⟨hfold, ?_, ?_⟩
  · intro h m hsome o ho h2 hh2
    rw [nearestHit, hfold] at hsome
    exact (foldl_bestStep_min sq ray iv objects none (h, m) hsome).1 o ho h2 hh2
  · intro o1 o2 h1 h2 hh1 hh2 hnlt
    rw [nearestHit, foldl_hitStep_eq sq hsq ray iv [o1, o2] none (by intro p hp; cases hp)]
    simp only [List.foldl_cons, List.foldl_nil]
    rw [bestStep_some_none_eq sq ray iv o1 h1 hh1,
      bestStep_some_some_eq sq ray iv o2 h2 h1 o1.material hh2, if_neg hnlt]

theorem nearest_hit_search_correct_witness :
    nearestHit sqW
        [⟨⟨⟨0, 0, -3⟩, 1⟩, Material.light ⟨1, 1, 1⟩⟩,
         ⟨⟨⟨0, 0, -5⟩, 1⟩, Material.light ⟨2, 2, 2⟩⟩]
        ⟨⟨0, 0, 0⟩, ⟨0, 0, -1⟩⟩ ⟨1 / 10, 100⟩ =
      some (⟨2, ⟨0, 0, 1⟩, true⟩, Material.light ⟨1, 1, 1⟩) := by
  have hsq : ∀ q, 0 ≤ q → 0 ≤ sqW q := by
    intro q hq
    unfold sqW
    split_ifs <;> norm_num
  exact (nearest_hit_search_correct sqW
      [⟨⟨⟨0, 0, -3⟩, 1⟩, Material.light ⟨1, 1, 1⟩⟩,
       ⟨⟨⟨0, 0, -5⟩, 1⟩, Material.light ⟨2, 2, 2⟩⟩]
      ⟨⟨0, 0, 0⟩, ⟨0, 0, -1⟩⟩ ⟨1 / 10, 100⟩ hsq).2.2
    ⟨⟨⟨0, 0, -3⟩, 1⟩, Material.light ⟨1, 1, 1⟩⟩
    ⟨⟨⟨0, 0, -5⟩, 1⟩, Material.light ⟨2, 2, 2⟩⟩
    ⟨2, ⟨0, 0, 1⟩, true⟩ ⟨4, ⟨0, 0, 1⟩, true⟩
    (by norm_num [Sphere.hit, Interval.surrounds, Sphere.t0, Sphere.t1, Sphere.tca,
      Sphere.d2, sqW, Ray.at, Vector.normalize, Vector.length, Vector.length_square,
      Vector.dot])
    (by norm_num [Sphere.hit, Interval.surrounds, Sphere.t0, Sphere.t1, Sphere.tca,
      Sphere.d2, sqW, Ray.at, Vector.normalize, Vector.length, Vector.length_square,
      Vector.dot])
    (by norm_num)

theorem Vector.mul_comm (a b : Vector) : a * b = b * a := by
  show Vector.mk (a.x * b.x) (a.y * b.y) (a.z * b.z) =
    Vector.mk (b.x * a.x) (b.y * a.y) (b.z * a.z)
  rw [Rat.mul_comm a.x, Rat.mul_comm a.y, Rat.mul_comm a.z]

/-- `Scene::trace` (`main.rs`): the recursive integrator.  `objects` is the
scene's object list; `iv` the search interval.  Depth 0 returns black, a
miss returns the background `Color::ZERO`, and the material response
either absorbs (black), scatters (recurse, multiplied by the attenuation)
or emits (return the color).  The result is `none` only when a material's
`random_unit` rejection loop fails to terminate within `fuel` rounds. -/
def trace (sq : ℚ → ℚ) (stream : ℕ → ℚ) (fuel : ℕ) (objects : List Object)
    (iv : Interval) : Ray → ℕ → ℕ → Option (Vector × ℕ)
  | _, 0, pos => some (Vector.ZERO, pos)
  | ray, depth + 1, pos =>
    match nearestHit sq objects ray iv with
    | Option.none => some (Vector.ZERO, pos)
    | Option.some (h, m) =>
      match m.on_hit sq stream fuel ray h pos with
      | Option.none => Option.none
      | Option.some (OnHit.none, p2) => some (Vector.ZERO, p2)
      | Option.some (OnHit.scatter attenuation scattered, p2) =>
        match trace sq stream fuel objects iv scattered depth p2 with
        | Option.none => Option.none
        | Option.some (c, p3) => some (c * attenuation, p3)
      | Option.some (OnHit.emitted c, p2) => some (c, p2)

/-- Modelled from the spec's recursive definition of the integrator: one
unfolding step written exactly as the spec states it — miss returns the
background, absorption black, scatter `attenuation * trace(scattered,
interval, depth-1)`, emission the color directly with no recursion. -/
def traceSpecStep (sq : ℚ → ℚ) (stream : ℕ → ℚ) (fuel : ℕ)
    (objects : List Object) (iv : Interval)
    (recur : Ray → ℕ → Option (Vector × ℕ)) (ray : Ray) (pos : ℕ) :
    Option (Vector × ℕ) :=
  match nearestHit sq objects ray iv with
  | Option.none => some (Vector.ZERO, pos)
  | Option.some (h, m) =>
    match m.on_hit sq stream fuel ray h pos with
    | Option.none => Option.none
    | Option.some (OnHit.none, p2) => some (Vector.ZERO, p2)
    | Option.some (OnHit.scatter attenuation scattered, p2) =>
      match recur scattered p2 with
      | Option.none => Option.none
      | Option.some (c, p3) => some (attenuation * c, p3)
    | Option.some (OnHit.emitted c, p2) => some (c, p2)

/-- Claim C5: `trace` satisfies the spec's recursive definition — depth 0
returns black regardless of scene content, and at depth `d + 1` the result
is exactly the spec's one-step case analysis (miss ↦ background black,
absorb ↦ black, scatter ↦ attenuation times the depth-`d` recursion,
emit ↦ the emitted color with no recursive contribution) applied to the
depth-`d` tracer. -/
theorem trace_matches_spec_recursion (sq : ℚ → ℚ) (stream : ℕ → ℚ)
    (fuel : ℕ) (objects : List Object) (iv : Interval) (ray : Ray)
    (depth pos : ℕ) :
    trace sq stream fuel objects iv ray 0 pos = some (Vector.ZERO, pos) ∧
    trace sq stream fuel objects iv ray (depth + 1) pos =
      traceSpecStep sq stream fuel objects iv
        (fun r p => trace sq stream fuel objects iv r depth p) ray pos := by
  refine ⟨rfl, ?_⟩
  simp only [trace, traceSpecStep]
  split
  · rfl
  · split
    · rfl
    · rfl
    · split
      · rfl
      · rw [Vector.mul_comm]
    · rfl

/-- Gas-indexed variant of `trace` used to state termination: `gas` is
spent one unit per recursive call, and `none` signals that the gas ran out
while work remained.  `trace` itself never runs out because each call
passes `depth - 1` to the recursion. -/
def traceGas (sq : ℚ → ℚ) (stream : ℕ → ℚ) (fuel : ℕ) (objects : List Object)
    (iv : Interval) : ℕ → Ray → ℕ → ℕ → Option (Vector × ℕ)
  | _, _, 0, pos => some (Vector.ZERO, pos)
  | 0, _, _ + 1, _ => Option.none
  | gas + 1, ray, depth + 1, pos =>
    match nearestHit sq objects ray iv with
    | Option.none => some (Vector.ZERO, pos)
    | Option.some (h, m) =>
      match m.on_hit sq stream fuel ray h pos with
      | Option.none => Option.none
      | Option.some (OnHit.none, p2) => some (Vector.ZERO, p2)
      | Option.some (OnHit.scatter attenuation scattered, p2) =>
        match traceGas sq stream fuel objects iv gas scattered depth p2 with
        | Option.none => Option.none
        | Option.some (c, p3) => some (c * attenuation, p3)
      | Option.some (OnHit.emitted c, p2) => some (c, p2)

theorem traceGas_eq_trace (sq : ℚ → ℚ) (stream : ℕ → ℚ) (fuel : ℕ)
    (objects : List Object) (iv : Interval) :
    ∀ (depth gas : ℕ), depth ≤ gas → ∀ (ray : Ray) (pos : ℕ),
      traceGas sq stream fuel objects iv gas ray depth pos =
        trace sq stream fuel objects iv ray depth pos
  | 0, gas, _, ray, pos => by cases gas <;> rfl
  | depth + 1, 0, hle, ray, pos => absurd hle (by omega)
  | depth + 1, gas + 1, hle, ray, pos => by
    simp only [traceGas, trace]
    split
    · rfl
    · split
      · rfl
      · rfl
      · rw [traceGas_eq_trace sq stream fuel objects iv depth gas (by omega)]
      · rfl

theorem random_unit_eq_none_iff (sq : ℚ → ℚ) (stream : ℕ → ℚ) :
    ∀ (fuel pos : ℕ),
      Vector.random_unit sq stream fuel pos = Option.none ↔
        ∀ i < fuel, ¬ (0 < (drawVec stream (pos + 3 * i)).length_square ∧
          (drawVec stream (pos + 3 * i)).length_square < 1)
  | 0, pos => by simp [Vector.random_unit]
  | fuel + 1, pos => by
    simp only [Vector.random_unit]
    by_cases hacc : 0 < (drawVec stream pos).length_square ∧
        (drawVec stream pos).length_square < 1
    · rw [if_pos hacc]
      constructor
      · intro h2
        exact Option.noConfusion h2
      · intro hall
        exact absurd hacc (by simpa using hall 0 (Nat.succ_pos fuel))
    · rw [if_neg hacc]
      rw [random_unit_eq_none_iff sq stream fuel (pos + 3)]
      constructor
      · intro hall i hi
        cases i with
        | zero => simpa using hacc
        | succ j =>
          have h2 := hall j (by omega)
          have harith : pos + 3 + 3 * j = pos + 3 * (j + 1) := by ring
          rw [harith] at h2
          exact h2
      · intro hall j hj
        have h2 := hall (j + 1) (by omega)
        have harith : pos + 3 + 3 * j = pos + 3 * (j + 1) := by ring
        rw [harith]
        exact h2

/-- Claim C6: the integrator terminates within the caller-supplied depth
bound — `gas` units of recursion budget suffice for any `depth ≤ gas`, each
recursive call spending exactly one unit — and the rejection-sampling loop
in `random_unit` fails to terminate within its fuel exactly when no triple
of consecutive draws in that window has squared length strictly between 0
and 1 (so trace's termination additionally needs the material's sampling
loop to find an acceptable triple). -/
theorem trace_terminates_within_depth (sq : ℚ → ℚ) (stream : ℕ → ℚ)
    (fuel : ℕ) (objects : List Object) (iv : Interval) (gas depth : ℕ)
    (hgd : depth ≤ gas) (ray : Ray) (pos : ℕ) :
    traceGas sq stream fuel objects iv gas ray depth pos =
      trace sq stream fuel objects iv ray depth pos ∧
    (Vector.random_unit sq stream fuel pos = Option.none ↔
      ∀ i < fuel, ¬ (0 < (drawVec stream (pos + 3 * i)).length_square ∧
        (drawVec stream (pos + 3 * i)).length_square < 1)) :=
  ⟨traceGas_eq_trace sq stream fuel objects iv depth gas hgd ray pos,
   random_unit_eq_none_iff sq stream fuel pos⟩

theorem trace_terminates_within_depth_witness :
    traceGas sqW streamW 1 [] ⟨1 / 10, 100⟩ 2 ⟨⟨0, 0, 0⟩, ⟨0, 0, -1⟩⟩ 2 0 =
      trace sqW streamW 1 [] ⟨1 / 10, 100⟩ ⟨⟨0, 0, 0⟩, ⟨0, 0, -1⟩⟩ 2 0 :=
  (trace_terminates_within_depth sqW streamW 1 [] ⟨1 / 10, 100⟩ 2 2
    (le_refl 2) ⟨⟨0, 0, 0⟩, ⟨0, 0, -1⟩⟩ 0).1

/-- `f32` with its special values, for the `color`/`gamma` pipeline where
`NaN` and the infinities matter (`fin q` is an ordinary finite value). -/
inductive F where
  | nan
  | inf
  | ninf
  | fin (q : ℚ)
deriving DecidableEq, Repr

/-- Rust `f32::clamp(0., 1.)` as used in `color`: `NaN` propagates,
`inf` clamps to 1, `-inf` to 0. -/
def F.clamp01 : F → F
  | .nan => .nan
  | .inf => .fin 1
  | .ninf => .fin 0
  | .fin q => .fin (clampQ q 0 1)

/-- The `* 255.` step of `color`. -/
def F.mul255 : F → F
  | .nan => .nan
  | .inf => .inf
  | .ninf => .ninf
  | .fin q => .fin (q * 255)

/-- Rust `as u32` on an `f32`: a saturating cast — `NaN` goes to 0,
negative values to 0, `inf` to `u32::MAX`, finite values truncate toward
zero (the floor, on non-negatives). -/
def F.asU32 : F → ℕ
  | .nan => 0
  | .inf => 2 ^ 32 - 1
  | .ninf => 0
  | .fin q => if q ≤ 0 then 0 else min (2 ^ 32 - 1) (Int.toNat ⌊q⌋)

/-- Rust `f32::sqrt` on `F`: negative finite arguments give `NaN`. -/
def F.sqrtF (sq : ℚ → ℚ) : F → F
  | .nan => .nan
  | .inf => .inf
  | .ninf => .nan
  | .fin q => if q < 0 then .nan else .fin (sq q)

/-- `color` from `geometry.rs`: clamp each channel to `[0, 1]`, scale by
255, cast to `u32`, pack as `red << 16 | green << 8 | blue`. -/
def color (r g b : F) : ℕ :=
  F.asU32 (F.mul255 (F.clamp01 r)) <<< 16 |||
    F.asU32 (F.mul255 (F.clamp01 g)) <<< 8 ||| F.asU32 (F.mul255 (F.clamp01 b))

/-- `gamma` from `geometry.rs`: square-root tone curve on each channel,
then `color`. -/
def gamma (sq : ℚ → ℚ) (r g b : F) : ℕ :=
  color (F.sqrtF sq r) (F.sqrtF sq g) (F.sqrtF sq b)

/-- `gamma` applied to a finite linear color (`Color = Vector`), the form
the render driver uses. -/
def gammaV (sq : ℚ → ℚ) (c : Vector) : ℕ :=
  gamma sq (.fin c.x) (.fin c.y) (.fin c.z)

theorem clampQ_mem (q : ℚ) : 0 ≤ clampQ q 0 1 ∧ clampQ q 0 1 ≤ 1 := by
  unfold clampQ
  split_ifs <;> constructor <;> linarith

theorem channel_le_255 (f : F) : F.asU32 (F.mul255 (F.clamp01 f)) ≤ 255 := by
  cases f with
  | nan => simp [F.clamp01, F.mul255, F.asU32]
  | inf =>
    simp only [F.clamp01, F.mul255, F.asU32]
    rw [if_neg (by norm_num)]
    have : (⌊(1 * 255 : ℚ)⌋ : ℤ) = 255 := by norm_num
    rw [this]
    norm_num
  | ninf => simp [F.clamp01, F.mul255, F.asU32]
  | fin q =>
    simp only [F.clamp01, F.mul255, F.asU32]
    split_ifs with h0
    · norm_num
    · refine le_trans (min_le_right _ _) ?_
      rw [Int.toNat_le]
      have hle : clampQ q 0 1 * 255 ≤ (255 : ℚ) := by
        have := (clampQ_mem q).2
        linarith
      calc (⌊clampQ q 0 1 * 255⌋ : ℤ) ≤ ⌊(255 : ℚ)⌋ := Int.floor_le_floor hle
        _ = 255 := by norm_num

theorem channel_packing (R G B : ℕ) (hR : R ≤ 255) (hG : G ≤ 255)
    (hB : B ≤ 255) :
    R <<< 16 ||| G <<< 8 ||| B = R * 65536 + G * 256 + B ∧
      R <<< 16 ||| G <<< 8 ||| B < 2 ^ 24 := by
  have hBlt : B < 2 ^ 8 := by omega
  have hGB : 2 ^ 8 * G + B < 2 ^ 16 := by omega
  have h1 : G <<< 8 ||| B = 2 ^ 8 * G + B := by
    rw [Nat.shiftLeft_eq, Nat.mul_comm]
    exact (Nat.mul_add_lt_is_or hBlt G).symm
  have h2 : R <<< 16 ||| (2 ^ 8 * G + B) = 2 ^ 16 * R + (2 ^ 8 * G + B) := by
    rw [Nat.shiftLeft_eq, Nat.mul_comm]
    exact (Nat.mul_add_lt_is_or hGB R).symm
  have heq : R <<< 16 ||| G <<< 8 ||| B = R * 65536 + G * 256 + B := by
    rw [Nat.lor_assoc, h1, h2]
    ring
  exact ⟨heq, by omega⟩

/-- Claim C9: the `gamma`/`color` packing is total on every `f32` input —
negative components become `NaN` under `sqrt` and cast to channel 0,
infinite components clamp to channel 255, `NaN` propagates to channel 0 —
every 8-bit channel is at most 255, the packed integer is strictly below
`2^24`, and the three channel fields occupy disjoint bit ranges (the OR is
exactly the sum `red·65536 + green·256 + blue`). -/
theorem gamma_total_and_packed (sq : ℚ → ℚ) (r g b : F) :
    gamma sq r g b < 2 ^ 24 ∧
    (∀ f : F, F.asU32 (F.mul255 (F.clamp01 f)) ≤ 255) ∧
    gamma sq r g b =
      F.asU32 (F.mul255 (F.clamp01 (F.sqrtF sq r))) * 65536 +
        F.asU32 (F.mul255 (F.clamp01 (F.sqrtF sq g))) * 256 +
        F.asU32 (F.mul255 (F.clamp01 (F.sqrtF sq b))) := by
  have hp := channel_packing
    (F.asU32 (F.mul255 (F.clamp01 (F.sqrtF sq r))))
    (F.asU32 (F.mul255 (F.clamp01 (F.sqrtF sq g))))
    (F.asU32 (F.mul255 (F.clamp01 (F.sqrtF sq b))))
    (channel_le_255 _) (channel_le_255 _) (channel_le_255 _)
  exact ⟨hp.2, channel_le_255, hp.1⟩

/-- `Scene` from `main.rs`: camera parameters and render configuration.
`max_samples` and `depth` are `u32` in the source, modelled as `ℕ` (a
negative value is not representable). -/
structure Scene where
  camera_position : Vector
  camera_direction : Vector
  camera_up : Vector
  camera_fov : ℚ
  max_samples : ℕ
  depth : ℕ
  objects : List Object

/-- The `camera_right` local of `Scene::render`. -/
def Scene.camRight (sq : ℚ → ℚ) (s : Scene) : Vector :=
  (s.camera_direction.cross s.camera_up).normalize sq

/-- The (shadowing) `camera_up` local of `Scene::render`. -/
def Scene.camUp (sq : ℚ → ℚ) (s : Scene) : Vector :=
  ((s.camRight sq).cross s.camera_direction).normalize sq

/-- The per-sample ray built inside the sample loop of `Scene::render`.
Both pixel coordinates are jittered by `rng.gen::<f32>() - 0.5` — the
generator is consulted unconditionally on every sample — and the direction
is normalized. -/
def renderSampleRay (sq : ℚ → ℚ) (stream : ℕ → ℚ) (s : Scene) (l x y : ℚ)
    (pos : ℕ) : Ray :=
  ⟨s.camera_position,
    Vector.normalize sq
      ((x + stream pos - 1 / 2) * s.camRight sq -
        (y + stream (pos + 1) - 1 / 2) * s.camUp sq +
        l * s.camera_direction)⟩

/-- Modelled from the spec: the pixel ray with NO jitter applied, as the
spec prescribes for sample count 1 (`x` and `y` used exactly, no random
offset). -/
def renderSampleRayNoJitter (sq : ℚ → ℚ) (s : Scene) (l x y : ℚ) : Ray :=
  ⟨s.camera_position,
    Vector.normalize sq
      (x * s.camRight sq - y * s.camUp sq + l * s.camera_direction)⟩

/-- The sample loop of `Scene::render` for one pixel: each sample draws
two jitters, traces the sample ray through `RENDER_RANGE` at the scene's
depth, and adds `contribution * color` to the accumulator.
`contribution = 1 / max_samples` is computed once outside the loop and
never used when the loop runs zero times. -/
def samplePixel (sq : ℚ → ℚ) (stream : ℕ → ℚ) (fuel : ℕ) (infty : ℚ)
    (s : Scene) (l x y contribution : ℚ) :
    ℕ → ℕ → Vector → Option (Vector × ℕ)
  | 0, pos, acc => some (acc, pos)
  | n + 1, pos, acc =>
    match trace sq stream fuel s.objects (Interval.RENDER_RANGE infty)
        (renderSampleRay sq stream s l x y pos) s.depth (pos + 2) with
    | Option.none => Option.none
    | Option.some (c, pos') =>
      samplePixel sq stream fuel infty s l x y contribution n pos'
        (acc + contribution * c)

/-- One pixel of `Scene::render`: integer div/mod recover the pixel's
offset from the image center, the sample loop runs `max_samples` times,
and the accumulated color is gamma-packed into the buffer slot.  `tan`
models `f32::tan` and `infty` the infinite upper bound of
`RENDER_RANGE`. -/
def renderPixel (sq tan : ℚ → ℚ) (stream : ℕ → ℚ) (fuel : ℕ) (infty : ℚ)
    (s : Scene) (width height index : ℕ) : Option ℕ :=
  let l := (width : ℚ) / tan (s.camera_fov / 2)
  let y := ((index / width : ℕ) : ℚ) - (height : ℚ) / 2
  let x := ((index % width : ℕ) : ℚ) - (width : ℚ) / 2
  let contribution := 1 / (s.max_samples : ℚ)
  match samplePixel sq stream fuel infty s l x y contribution s.max_samples 0
      Vector.ZERO with
  | Option.none => Option.none
  | Option.some (c, _) => some (gammaV sq c)

/-- `Scene::render`: one pixel per index in `[0, width·height)`, each
pixel with its own random stream (per-worker `thread_rng`). -/
def render (sq tan : ℚ → ℚ) (streams : ℕ → ℕ → ℚ) (fuel : ℕ) (infty : ℚ)
    (s : Scene) (width height : ℕ) : List (Option ℕ) :=
  (List.range (width * height)).map fun index =>
    renderPixel sq tan (streams index) fuel infty s width height index

/-- Square root that is the identity on 1, used by counterexamples where
only the branch structure matters. -/
def sqI : ℚ → ℚ := fun _ => 1

/-- A one-sample scene: camera at the origin looking down `-z`. -/
def sceneW1 : Scene :=
  ⟨Vector.ZERO, ⟨0, 0, -1⟩, ⟨0, 1, 0⟩, 1, 1, 32, []⟩

/-- A zero-sample scene, otherwise identical to `sceneW1`. -/
def sceneW0 : Scene :=
  ⟨Vector.ZERO, ⟨0, 0, -1⟩, ⟨0, 1, 0⟩, 1, 0, 32, []⟩

/-- Claim C1 is FALSE on the code: the driver jitters even when the
configured sample count is exactly 1.  Concretely, with one sample, pixel
offset `(0, 0)` and all random draws equal to 0, the ray the driver builds
differs from the spec's jitter-free ray. -/
theorem render_jitters_at_one_sample :
    sceneW1.max_samples = 1 ∧
    renderSampleRay sqI (fun _ => 0) sceneW1 1 0 0 0 ≠
      renderSampleRayNoJitter sqI sceneW1 1 0 0 := by
  refine ⟨rfl, ?_⟩
  simp only [renderSampleRay, renderSampleRayNoJitter, sceneW1, sqI,
    Scene.camRight, Scene.camUp, Vector.cross, Vector.normalize, Vector.length,
    Vector.length_square, Vector.dot, Vector.ZERO]
  norm_num [Ray.mk.injEq, Vector.mk.injEq]

/-- Claim C1 (amended): the render driver applies jitter on EVERY sample,
regardless of the configured sample count — the built ray direction is the
normalization of `(x + j0)·right - (y + j1)·up + l·forward` where
`j0 = draw - 1/2` and `j1 = draw' - 1/2` are fresh per sample, and when
the draws lie in `[0, 1)` both jitters lie in `[-1/2, 1/2)`. -/
theorem render_jitter_every_sample (sq : ℚ → ℚ) (stream : ℕ → ℚ)
    (s : Scene) (l x y : ℚ) (pos : ℕ)
    (hstream : ∀ n, 0 ≤ stream n ∧ stream n < 1) :
    renderSampleRay sq stream s l x y pos =
      ⟨s.camera_position,
        Vector.normalize sq
          ((x + (stream pos - 1 / 2)) * s.camRight sq -
            (y + (stream (pos + 1) - 1 / 2)) * s.camUp sq +
            l * s.camera_direction)⟩ ∧
    (-(1 / 2) ≤ stream pos - 1 / 2 ∧ stream pos - 1 / 2 < 1 / 2) ∧
    (-(1 / 2) ≤ stream (pos + 1) - 1 / 2 ∧ stream (pos + 1) - 1 / 2 < 1 / 2) := by
  refine ⟨?_, ?_, ?_⟩
  · have h1 : x + stream pos - 1 / 2 = x + (stream pos - 1 / 2) := by ring
    have h2 : y + stream (pos + 1) - 1 / 2 = y + (stream (pos + 1) - 1 / 2) := by
      ring
    unfold renderSampleRay
    rw [h1, h2]
  · have h := hstream pos
    constructor <;> linarith [h.1, h.2]
  · have h := hstream (pos + 1)
    constructor <;> linarith [h.1, h.2]

theorem render_jitter_every_sample_witness :
    -(1 / 2) ≤ streamW 0 - 1 / 2 ∧ streamW 0 - 1 / 2 < 1 / 2 :=
  (render_jitter_every_sample sqW streamW sceneW1 1 0 0 0
    (by intro n; unfold streamW; split_ifs <;> norm_num)).2.1

/-- Claim C2 is FALSE on the code: invoked with a zero sample count,
`render` does not reject the call — there is no validation and no error
channel — it renders every pixel as `gamma` of black (packed 0). -/
theorem render_zero_samples_renders :
    sceneW0.max_samples = 0 ∧
    render sqW sqI (fun _ => streamW) 1 100 sceneW0 1 1 = [some 0] := by
  refine ⟨rfl, ?_⟩
  have hr : List.range (1 * 1) = [0] := rfl
  simp only [render, hr, List.map_cons, List.map_nil, renderPixel,
    sceneW0, samplePixel]
  norm_num [gammaV, gamma, color, F.sqrtF, F.clamp01, F.mul255, F.asU32,
    clampQ, sqW, Vector.ZERO]

/-- Claim C2 (amended): `Scene::render` performs no precondition
validation and has no error channel.  With a zero sample count the sample
loop never runs and every pixel is written as `gamma` of black (the
division `1 / max_samples` is computed but never used); with a zero width
or height the pixel range is empty and nothing is computed; a negative
recursion depth is not representable because `depth` is `u32`. -/
theorem render_no_validation (sq tan : ℚ → ℚ) (stream : ℕ → ℚ)
    (streams : ℕ → ℕ → ℚ) (fuel : ℕ) (infty : ℚ) (s : Scene)
    (width height index : ℕ) :
    (s.max_samples = 0 →
      renderPixel sq tan stream fuel infty s width height index =
        some (gammaV sq Vector.ZERO)) ∧
    (width = 0 ∨ height = 0 →
      render sq tan streams fuel infty s width height = []) := by
  constructor
  · intro h0
    unfold renderPixel
    rw [h0]
    rfl
  · rintro (rfl | rfl)
    · unfold render
      simp
    · unfold render
      simp

theorem render_no_validation_witness :
    renderPixel sqW sqI streamW 1 100 sceneW0 1 1 0 =
      some (gammaV sqW Vector.ZERO) :=
  (render_no_validation sqW sqI streamW (fun _ => streamW) 1 100 sceneW0
    1 1 0).1 rfl

end Tracer
